import Mathlib

/-!
Verification development for the WFC-like procedural grid generator
(`wcf.py`, `nodes.py`).  Python floats are modelled by `ℚ` (and by `ℝ` where
the code uses `sqrt`/fractional powers); tiles are identified with their
content hashes (the code deduplicates tiles by a content digest and assumes
the digest is injective on the tiles that occur); numpy grids of tile hashes
are modelled as functions or as lists of rows of naturals, with `0` the
reserved "undecided" hash.
-/

/-! ### Tile catalog: per-sample frequencies and the multi-sample merge
(`WFC_Sample.prepare`, `WFC_Sample.__init__`) -/

/-- Per-sample tile frequency as computed by `WFC_Sample.prepare`
(`counts / tiles.shape[0]`): the number of occurrences of hash `h` in the
sample (a sample is its flattened list of tile hashes) divided by the total
number of tiles of the sample. -/
def sampleFreq (s : List ℕ) (h : ℕ) : ℚ :=
  (s.count h : ℚ) / (s.length : ℚ)

/-- One merge step of `WFC_Sample.__init__`:
`{k: (v[0], self.tile_data.get(k, (None, 0))[1] + v[1]) for k, v in {**self.tile_data, **r_tile_data}.items()}`.
A tile-data dict is modelled as a frequency function together with a
key-membership function.  For a key of the merged dict `{**F, **r}`, `v` is
`r`'s entry when the key is in `r` and `F`'s own entry otherwise. -/
def mergeStep (F : ℕ → ℚ) (inF : ℕ → Bool) (r : ℕ → ℚ) (inR : ℕ → Bool) :
    (ℕ → ℚ) × (ℕ → Bool) :=
  (fun k =>
    if inR k || inF k then
      (if inF k then F k else 0) + (if inR k then r k else F k)
    else 0,
   fun k => inF k || inR k)

/-- The tile-frequency table built by `WFC_Sample.__init__` from a sample list:
the first sample's frequencies, then one `mergeStep` per further sample. -/
def mergedTileFreq (s0 : List ℕ) (rest : List (List ℕ)) : (ℕ → ℚ) × (ℕ → Bool) :=
  rest.foldl
    (fun Fp r => mergeStep Fp.1 Fp.2 (sampleFreq r) (fun k => decide (k ∈ r)))
    (sampleFreq s0, fun k => decide (k ∈ s0))

/-- The claim's formula: the sum of the per-sample frequencies of hash `h`
over exactly the samples in which `h` occurs. -/
def perSampleFreqSum : List (List ℕ) → ℕ → ℚ
  | [], _ => 0
  | s :: rest, h => (if h ∈ s then sampleFreq s h else 0) + perSampleFreqSum rest h

/-- What the merge loop actually computes, in closed form: each sample's
contribution is doubled once for every later sample from which the hash is
absent. -/
def doubledFreqSum : List (List ℕ) → ℕ → ℚ
  | [], _ => 0
  | s :: rest, h =>
      (if h ∈ s then sampleFreq s h else 0) * 2 ^ rest.countP (fun r => !decide (h ∈ r))
        + doubledFreqSum rest h

lemma mergedTileFreq_foldl (ss : List (List ℕ)) :
    ∀ (F : ℕ → ℚ) (inF : ℕ → Bool) (h : ℕ), (inF h = false → F h = 0) →
      (ss.foldl
        (fun Fp r => mergeStep Fp.1 Fp.2 (sampleFreq r) (fun k => decide (k ∈ r)))
        (F, inF)).1 h
        = doubledFreqSum ss h
          + (if inF h then F h * 2 ^ ss.countP (fun r => !decide (h ∈ r)) else 0) := by
  induction ss with
  | nil =>
      intro F inF h hF0
      cases hF : inF h with
      | false => simp [doubledFreqSum, hF, hF0 hF]
      | true => simp [doubledFreqSum, hF]
  | cons r rest ih =>
      intro F inF h hF0
      rw [List.foldl_cons, ih _ _ _ (by
        intro hfalse
        simp only [mergeStep, Bool.or_eq_false_iff] at hfalse ⊢
        simp [hfalse.1, hfalse.2])]
      simp only [doubledFreqSum, mergeStep, List.countP_cons]
      by_cases hr : h ∈ r <;> by_cases hF : inF h = true <;>
        simp [hr, hF, pow_succ] <;> ring

/-- C1 (amended): the merged frequency stored by `WFC_Sample.__init__` for a
hash equals the sum, over the samples containing that hash, of the per-sample
frequency multiplied by `2 ^ (number of later samples missing that hash)`:
the per-sample frequencies are indeed summed (not raw counts), but a hash
absent from a later sample has its accumulated frequency doubled at that
merge step. -/
theorem mergedTileFreq_eq_doubledFreqSum (s0 : List ℕ) (rest : List (List ℕ)) (h : ℕ) :
    (mergedTileFreq s0 rest).1 h = doubledFreqSum (s0 :: rest) h := by
  rw [mergedTileFreq, mergedTileFreq_foldl _ _ _ _ (by
    intro hfalse
    simp only [decide_eq_false_iff_not] at hfalse
    simp [sampleFreq, List.count_eq_zero_of_not_mem hfalse])]
  simp only [doubledFreqSum]
  by_cases h0 : h ∈ s0 <;> simp [h0] <;> ring

/-- C1 counterexample: samples `[1,2]` and `[2,2]`.  Hash `1` occurs only in
the first sample with frequency `1/2`, so the claim predicts a merged
frequency of `1/2`; the code stores `1` (the accumulated frequency is doubled
when the hash is missing from the second sample). -/
theorem mergedTileFreq_ne_perSampleFreqSum :
    (mergedTileFreq [1, 2] [[2, 2]]).1 1 ≠ perSampleFreqSum [[1, 2], [2, 2]] 1 := by
  norm_num [mergedTileFreq, mergeStep, sampleFreq, perSampleFreqSum]

/-! ### Problem construction: number of tiles to process and the
frequency-adjustment quadratic (`WFC_Problem.__init__`,
`WFC_Problem._tile_freq_adjustment_func`) -/

/-- 3x3 determinant (rows `[[a,b,c],[d,e,f],[g,h,i]]`), used to model
`np.linalg.solve`, which raises `LinAlgError` exactly on a singular matrix. -/
def det3 (a b c d e f g h i : ℚ) : ℚ :=
  a * (e * i - f * h) - b * (d * i - f * g) + c * (d * h - e * g)

/-- Model of `np.linalg.solve` on a 3x3 system: `none` when the matrix is
singular (numpy raises `LinAlgError`), otherwise the unique solution, given
by Cramer's rule. -/
def solve3 (a b c d e f g h i b1 b2 b3 : ℚ) : Option (ℚ × ℚ × ℚ) :=
  if det3 a b c d e f g h i = 0 then none
  else
    some (det3 b1 b c b2 e f b3 h i / det3 a b c d e f g h i,
          det3 a b1 c d b2 f g b3 i / det3 a b c d e f g h i,
          det3 a b b1 d e b2 g h b3 / det3 a b c d e f g h i)

/-- `starting_state.size - np.count_nonzero(starting_state)` in
`WFC_Problem.__init__`: the number of undecided (zero) cells of the starting
grid, given as its list of rows of tile hashes. -/
def numberOfTilesToProcess (g : List (List ℕ)) : ℕ :=
  (g.map (fun row => row.countP (fun v => decide (v = 0)))).sum

/-- The quadratic solved in `WFC_Problem.__init__`:
`a = [[0, 0, 1], [t**2, t, 1], [(t/2)**2, t/2, 1]]`, `b = [t, t, 0]`,
coefficients `(α, β, γ)` of `α x² + β x + γ` (`np.poly1d` order), or `none`
when `np.linalg.solve` raises. -/
def tileFreqAdjustmentPoly (t : ℚ) : Option (ℚ × ℚ × ℚ) :=
  solve3 0 0 1 (t ^ 2) t 1 ((t / 2) ^ 2) (t / 2) 1 t t 0

def polyEval (c : ℚ × ℚ × ℚ) (x : ℚ) : ℚ := c.1 * x ^ 2 + c.2.1 * x + c.2.2

/-- `WFC_Problem._tile_freq_adjustment_func`:
`max_freq_adjust * (1 - poly(depth) / number_of_tiles_to_process)`; `none`
when construction already failed on the singular system. -/
def tileFreqAdjustmentFunc (t maxFreqAdjust d : ℚ) : Option ℚ :=
  (tileFreqAdjustmentPoly t).map (fun c => maxFreqAdjust * (1 - polyEval c d / t))

/-- The polynomial construction step of `WFC_Problem.__init__` as a function
of the starting grid. -/
def wfcInitPoly (g : List (List ℕ)) : Option (ℚ × ℚ × ℚ) :=
  tileFreqAdjustmentPoly (numberOfTilesToProcess g)

/-- C2: with a starting grid that has no undecided cell, the number of tiles
to process is `0`, the interpolation matrix `[[0,0,1],[0,0,1],[0,0,1]]` is
singular, and `WFC_Problem.__init__` fails (numpy `LinAlgError`) instead of
letting the engine stop at depth 0 and return the grid. -/
theorem wfcInitPoly_prefilled_fails (g : List (List ℕ))
    (hfull : ∀ row ∈ g, ∀ v ∈ row, v ≠ 0) :
    wfcInitPoly g = none := by
  have ht : numberOfTilesToProcess g = 0 := by
    rw [numberOfTilesToProcess]
    rw [List.sum_eq_zero]
    intro x hx
    simp only [List.mem_map] at hx
    obtain ⟨row, hrow, rfl⟩ := hx
    rw [List.countP_eq_zero]
    intro v hv
    simpa using hfull row hrow v hv
  rw [wfcInitPoly, ht, tileFreqAdjustmentPoly, solve3]
  norm_num [det3]

/-- Witness for C2 at the concrete fully-decided 2x2 grid `[[1,1],[1,1]]`. -/
theorem wfcInitPoly_prefilled_fails_witness :
    (∀ row ∈ [[1, 1], [1, 1]], ∀ v ∈ row, v ≠ 0) ∧
      wfcInitPoly [[1, 1], [1, 1]] = none :=
  ⟨by decide, wfcInitPoly_prefilled_fails [[1, 1], [1, 1]] (by decide)⟩

/-- The quadratic described by the claim's words: the unique quadratic through
`(0,0)`, `(T,0)`, `(T/2,T)` — same matrix, right-hand side `[0, 0, t]`. -/
def claimAdjustmentPoly (t : ℚ) : Option (ℚ × ℚ × ℚ) :=
  solve3 0 0 1 (t ^ 2) t 1 ((t / 2) ^ 2) (t / 2) 1 0 0 t

/-- The depth adjustment the claim describes:
`strength × (1 − Q(depth)/T)` with `Q` the claim's quadratic. -/
def claimDepthAdjustment (t strength d : ℚ) : Option ℚ :=
  (claimAdjustmentPoly t).map (fun c => strength * (1 - polyEval c d / t))

/-- C3 counterexample: at `T = 4`, strength `1`, depth `0`, the code's depth
adjustment is `0` while the claim's formula gives `1`. -/
theorem tileFreqAdjustment_ne_claim :
    tileFreqAdjustmentFunc 4 1 0 ≠ claimDepthAdjustment 4 1 0 := by
  norm_num [tileFreqAdjustmentFunc, claimDepthAdjustment, tileFreqAdjustmentPoly,
    claimAdjustmentPoly, solve3, det3, polyEval]

/-- C3 (amended): for a positive total `T`, the quadratic actually solved in
`WFC_Problem.__init__` passes through `(0,T)`, `(T,T)`, `(T/2,0)` — the
reflection of the claim's points — and the resulting depth adjustment is
`strength × (1 − Q(d)/T) = strength × 4 × (d/T) × (1 − d/T)`: zero at start
and end of the generation and peaking at `strength` at mid-generation. -/
theorem tileFreqAdjustmentFunc_closed_form (t strength d : ℚ) (ht : 0 < t) :
    tileFreqAdjustmentFunc t strength d
        = some (strength * (4 * (d / t) * (1 - d / t)))
      ∧ ∃ c, tileFreqAdjustmentPoly t = some c
          ∧ polyEval c 0 = t ∧ polyEval c t = t ∧ polyEval c (t / 2) = 0 := by
  have ht0 : t ≠ 0 := ne_of_gt ht
  have hdet : det3 0 0 1 (t ^ 2) t 1 ((t / 2) ^ 2) (t / 2) 1 = t ^ 3 / 4 := by
    rw [det3]; ring
  have hdet0 : det3 0 0 1 (t ^ 2) t 1 ((t / 2) ^ 2) (t / 2) 1 ≠ 0 := by
    rw [hdet]; positivity
  have hd4 : t ^ 3 / 4 ≠ 0 := by positivity
  have hx : det3 t 0 1 t t 1 0 (t / 2) 1 = t ^ 2 := by rw [det3]; ring
  have hy : det3 0 t 1 (t ^ 2) t 1 ((t / 2) ^ 2) 0 1 = -t ^ 3 := by rw [det3]; ring
  have hz : det3 0 0 t (t ^ 2) t t ((t / 2) ^ 2) (t / 2) 0 = t ^ 4 / 4 := by
    rw [det3]; ring
  have hpoly : tileFreqAdjustmentPoly t = some (4 / t, -4, t) := by
    rw [tileFreqAdjustmentPoly, solve3, if_neg hdet0, hdet, hx, hy, hz]
    simp only [Option.some.injEq, Prod.mk.injEq]
    refine ⟨?_, ?_, ?_⟩ <;> (field_simp; try ring)
  refine ⟨?_, ⟨(4 / t, -4, t), hpoly, ?_, ?_, ?_⟩⟩
  · rw [tileFreqAdjustmentFunc, hpoly, Option.map_some']
    have hinner : polyEval (4 / t, -4, t) d / t = 1 - 4 * (d / t) * (1 - d / t) := by
      simp only [polyEval]
      field_simp
      ring
    rw [hinner]
    congr 1
    ring
  all_goals
    simp only [polyEval]
    field_simp
    try ring

/-- Witness for C3 at `T = 4`, strength `1`, depth `1`. -/
theorem tileFreqAdjustmentFunc_closed_form_witness :
    (0 : ℚ) < 4 ∧
      (tileFreqAdjustmentFunc 4 1 1 = some (1 * (4 * (1 / 4) * (1 - 1 / 4)))
        ∧ ∃ c, tileFreqAdjustmentPoly 4 = some c
            ∧ polyEval c 0 = 4 ∧ polyEval c 4 = 4 ∧ polyEval c (4 / 2) = 0) :=
  ⟨by norm_num, tileFreqAdjustmentFunc_closed_form 4 1 1 (by norm_num)⟩

/-! ### Temperature controller (`WFC_Problem.temp_ratio`,
`WFC_Problem.get_new_temperature`).  `np.sqrt` and the fractional power force
a real-valued model. -/

/-- `WFC_Problem.temp_ratio`: with `depth_diff = prior_node_depth - node_depth`
and `depth_ratio = node_depth / T`,
`min(.9, |depth_diff|*3/sqrt(T))` when `depth_diff != 0`,
else `depth_ratio ** 2.5 / 80`. -/
noncomputable def tempRatio (T : ℕ) (nodeDepth priorNodeDepth : ℕ) : ℝ :=
  if (priorNodeDepth : ℤ) - (nodeDepth : ℤ) ≠ 0 then
    min 0.9 ((|(priorNodeDepth : ℤ) - (nodeDepth : ℤ)| * 3 : ℤ) / Real.sqrt T)
  else ((nodeDepth : ℝ) / (T : ℝ)) ^ (2.5 : ℝ) / 80

/-- `WFC_Problem.get_new_temperature`: the floor is `max_min_temperature` when
`node_depth <= prior_node_depth`, else `min_min_temperature`; the new
temperature mixes the floor and the current temperature by the ratio. -/
noncomputable def getNewTemperature (T : ℕ) (minMinTemp maxMinTemp curTemp : ℝ)
    (nodeDepth priorNodeDepth : ℕ) : ℝ :=
  (if nodeDepth ≤ priorNodeDepth then maxMinTemp else minMinTemp) * tempRatio T nodeDepth priorNodeDepth
    + curTemp * (1 - tempRatio T nodeDepth priorNodeDepth)

/-- The ratio the claim describes: the capped linear formula when the depth
decreased or is unchanged, the power formula when it increased. -/
noncomputable def claimTempRatio (T : ℕ) (nodeDepth priorNodeDepth : ℕ) : ℝ :=
  if nodeDepth ≤ priorNodeDepth then
    min 0.9 ((|(priorNodeDepth : ℤ) - (nodeDepth : ℤ)| * 3 : ℤ) / Real.sqrt T)
  else ((nodeDepth : ℝ) / (T : ℝ)) ^ (2.5 : ℝ) / 80

/-- The new temperature the claim describes: its floor is
`max_min_temperature` when advancing (depth increased), else
`min_min_temperature`. -/
noncomputable def claimNewTemperature (T : ℕ) (minMinTemp maxMinTemp curTemp : ℝ)
    (nodeDepth priorNodeDepth : ℕ) : ℝ :=
  (if priorNodeDepth < nodeDepth then maxMinTemp else minMinTemp)
      * claimTempRatio T nodeDepth priorNodeDepth
    + curTemp * (1 - claimTempRatio T nodeDepth priorNodeDepth)

lemma quarter_rpow : ((1 : ℝ) / 4) ^ (2.5 : ℝ) = 1 / 32 := by
  have h4 : ((1 : ℝ) / 4) = (1 / 2 : ℝ) ^ (2 : ℝ) := by
    rw [show ((2 : ℝ)) = ((2 : ℕ) : ℝ) by norm_num, Real.rpow_natCast]
    norm_num
  rw [h4, ← Real.rpow_mul (by norm_num : (0 : ℝ) ≤ 1 / 2)]
  rw [show ((2 : ℝ) * 2.5) = ((5 : ℕ) : ℝ) by norm_num, Real.rpow_natCast]
  norm_num

/-- The ratio as amended: the capped linear formula applies whenever the depth
changed (in either direction), the power formula exactly when it is
unchanged. -/
noncomputable def amendedTempRatio (T : ℕ) (nodeDepth priorNodeDepth : ℕ) : ℝ :=
  if nodeDepth = priorNodeDepth then ((nodeDepth : ℝ) / (T : ℝ)) ^ (2.5 : ℝ) / 80
  else min 0.9 ((Nat.dist priorNodeDepth nodeDepth * 3 : ℕ) / Real.sqrt T)

/-- The new temperature as amended: the floor is `max_min_temperature` when
the depth did not increase (backtracking or unchanged), and
`min_min_temperature` when advancing. -/
noncomputable def amendedNewTemperature (T : ℕ) (minMinTemp maxMinTemp curTemp : ℝ)
    (nodeDepth priorNodeDepth : ℕ) : ℝ :=
  (if priorNodeDepth < nodeDepth then minMinTemp else maxMinTemp)
      * amendedTempRatio T nodeDepth priorNodeDepth
    + curTemp * (1 - amendedTempRatio T nodeDepth priorNodeDepth)

/-- C4 (amended): the code's ratio uses the capped backtracking formula for
every change of depth (increase or decrease) and the power formula only for
an unchanged depth, and the temperature floor is `max_min_temperature`
exactly when the depth did not increase. -/
theorem getNewTemperature_eq_amended (T : ℕ) (minMinTemp maxMinTemp curTemp : ℝ)
    (nodeDepth priorNodeDepth : ℕ) :
    tempRatio T nodeDepth priorNodeDepth = amendedTempRatio T nodeDepth priorNodeDepth
      ∧ getNewTemperature T minMinTemp maxMinTemp curTemp nodeDepth priorNodeDepth
          = amendedNewTemperature T minMinTemp maxMinTemp curTemp nodeDepth priorNodeDepth := by
  have hratio : tempRatio T nodeDepth priorNodeDepth
      = amendedTempRatio T nodeDepth priorNodeDepth := by
    rw [tempRatio, amendedTempRatio]
    by_cases hd : nodeDepth = priorNodeDepth
    · rw [if_pos hd,
        if_neg (show ¬((priorNodeDepth : ℤ) - (nodeDepth : ℤ) ≠ 0) by omega)]
    · rw [if_neg hd,
        if_pos (show (priorNodeDepth : ℤ) - (nodeDepth : ℤ) ≠ 0 by omega)]
      have habs : (|(priorNodeDepth : ℤ) - (nodeDepth : ℤ)| * 3 : ℤ)
          = ((Nat.dist priorNodeDepth nodeDepth * 3 : ℕ) : ℤ) := by
        rw [Int.abs_eq_natAbs, Nat.dist]
        omega
      rw [habs, Int.cast_natCast]
  refine ⟨hratio, ?_⟩
  rw [getNewTemperature, amendedNewTemperature, hratio]
  have hif : (if nodeDepth ≤ priorNodeDepth then maxMinTemp else minMinTemp)
      = (if priorNodeDepth < nodeDepth then minMinTemp else maxMinTemp) := by
    by_cases hle : nodeDepth ≤ priorNodeDepth
    · rw [if_pos hle, if_neg (by omega)]
    · rw [if_neg hle, if_pos (by omega)]
  rw [hif]

/-- C4 counterexample: `T = 4`, depth `1`, prior depth `1` (unchanged, i.e.
"backtracking" in the claim's reading), `min_min = 0`, `max_min = 80`,
current temperature `50`.  The code's ratio is `(1/4)^2.5 / 80 = 1/2560`
(the power formula fires on the unchanged depth) while the claim's ratio is
`min(0.9, 0) = 0`; the code's new temperature is `80/2560 + 50·(1 − 1/2560)`,
the claim's is `50`. -/
theorem getNewTemperature_ne_claim :
    tempRatio 4 1 1 ≠ claimTempRatio 4 1 1
      ∧ getNewTemperature 4 0 80 50 1 1 ≠ claimNewTemperature 4 0 80 50 1 1 := by
  have h1 : tempRatio 4 1 1 = 1 / 2560 := by
    rw [tempRatio, if_neg (by norm_num)]
    rw [show ((1 : ℕ) : ℝ) / ((4 : ℕ) : ℝ) = (1 : ℝ) / 4 by norm_num]
    rw [quarter_rpow]
    norm_num
  have h2 : claimTempRatio 4 1 1 = 0 := by
    rw [claimTempRatio, if_pos (by norm_num)]
    norm_num
  constructor
  · rw [h1, h2]
    norm_num
  · rw [getNewTemperature, claimNewTemperature, h1, h2]
    norm_num

/-! ### World state manager (`WFC_Problem.update_open_nodes`,
`WFC_Problem.apply_action`, `WFC_Problem.revert_action`,
`WFC_Problem.get_world_state`).  The shared mutable grid is a function from
integer coordinates to tile hashes, the per-tile counters a function from
hashes to integers, the open set a finite set of coordinates. -/

/-- Per-run configuration: cardinal mode and the grid bounds
(`self._use_8cardinals`, `self._temp_world_state.shape`). -/
structure WfcConfig where
  use8Cardinals : Bool
  height : ℕ
  width : ℕ

/-- The mutable world owned by the search engine: `self._temp_world_state`,
`self._tile_counts`, `self._temp_world_open_super_tiles`. -/
structure WorldState where
  grid : ℤ × ℤ → ℕ
  tileCounts : ℕ → ℤ
  openTiles : Finset (ℤ × ℤ)

def inBounds (cfg : WfcConfig) (c : ℤ × ℤ) : Prop :=
  0 ≤ c.1 ∧ c.1 < (cfg.height : ℤ) ∧ 0 ≤ c.2 ∧ c.2 < (cfg.width : ℤ)

instance (cfg : WfcConfig) (c : ℤ × ℤ) : Decidable (inBounds cfg c) := by
  unfold inBounds
  infer_instance

/-- The neighbour list of `update_open_nodes` and
`get_cell_potential_states_and_costs`: the eight offsets
`(y-1+_y, x-1+_x)` with `(_y,_x) ≠ (1,1)` in row-major order, restricted to
entries `[1,3,4,6]` (the four cardinals) when not in 8-cardinal mode, then
filtered to the grid bounds. -/
def indicesToCheck (cfg : WfcConfig) (y x : ℤ) : List (ℤ × ℤ) :=
  let sel : List (ℤ × ℤ) :=
    if cfg.use8Cardinals then
      [(-1, -1), (-1, 0), (-1, 1), (0, -1), (0, 1), (1, -1), (1, 0), (1, 1)]
    else [(-1, 0), (0, -1), (0, 1), (1, 0)]
  (sel.map (fun d => (y + d.1, x + d.2))).filter (fun c => decide (inBounds cfg c))

/-- The inner neighbour list of the reopening branch of `update_open_nodes`:
all nine offsets (centre included) in row-major order, restricted to entries
`[1,3,5,7]` (the four cardinals) when not in 8-cardinal mode, then filtered
to the grid bounds. -/
def subIndicesToCheck (cfg : WfcConfig) (y x : ℤ) : List (ℤ × ℤ) :=
  let sel : List (ℤ × ℤ) :=
    if cfg.use8Cardinals then
      [(-1, -1), (-1, 0), (-1, 1), (0, -1), (0, 0), (0, 1), (1, -1), (1, 0), (1, 1)]
    else [(-1, 0), (0, -1), (0, 1), (1, 0)]
  (sel.map (fun d => (y + d.1, x + d.2))).filter (fun c => decide (inBounds cfg c))

/-- In-place write of one grid cell (`self._temp_world_state[*pos] = v`). -/
def updateGrid (g : ℤ × ℤ → ℕ) (c : ℤ × ℤ) (v : ℕ) : ℤ × ℤ → ℕ :=
  fun c' => if c' = c then v else g c'

/-- In-place update of one tile counter (`self._tile_counts[k] += dlt`). -/
def updateCount (tc : ℕ → ℤ) (k : ℕ) (dlt : ℤ) : ℕ → ℤ :=
  fun k' => if k' = k then tc k' + dlt else tc k'

/-- `WFC_Problem.update_open_nodes`.  Reopening: add `(y,x)`, then walk the
neighbour list removing every member all of whose own neighbours (centre
included in 8-cardinal mode) are undecided.  Closing: remove `(y,x)`, then
add every undecided neighbour. -/
def updateOpenNodes (cfg : WfcConfig) (grid : ℤ × ℤ → ℕ) (wost : Finset (ℤ × ℤ))
    (y x : ℤ) (isReopening : Bool) : Finset (ℤ × ℤ) :=
  if isReopening then
    (indicesToCheck cfg y x).foldl
      (fun w n =>
        if n ∈ w ∧ ∀ m ∈ subIndicesToCheck cfg n.1 n.2, grid m = 0 then w.erase n
        else w)
      (insert (y, x) wost)
  else
    (indicesToCheck cfg y x).foldl
      (fun w n => if grid n = 0 then insert n w else w)
      (wost.erase (y, x))

/-- `WFC_Problem.apply_action`: write the tile, bump its counter, close the
cell in the open set. -/
def applyAction (cfg : WfcConfig) (s : WorldState) (a : (ℤ × ℤ) × ℕ) : WorldState :=
  { grid := updateGrid s.grid a.1 a.2
    tileCounts := updateCount s.tileCounts a.2 1
    openTiles := updateOpenNodes cfg (updateGrid s.grid a.1 a.2) s.openTiles a.1.1 a.1.2 false }

/-- `WFC_Problem.revert_action`: decrement the counter of the tile currently
stored in the grid, clear the cell, reopen it. -/
def revertAction (cfg : WfcConfig) (s : WorldState) (a : (ℤ × ℤ) × ℕ) : WorldState :=
  { grid := updateGrid s.grid a.1 0
    tileCounts := updateCount s.tileCounts (s.grid a.1) (-1)
    openTiles := updateOpenNodes cfg (updateGrid s.grid a.1 0) s.openTiles a.1.1 a.1.2 true }

lemma mem_foldl_insert (grid : ℤ × ℤ → ℕ) (L : List (ℤ × ℤ)) (w : Finset (ℤ × ℤ))
    (c : ℤ × ℤ) :
    c ∈ L.foldl (fun w n => if grid n = 0 then insert n w else w) w
      ↔ c ∈ w ∨ (c ∈ L ∧ grid c = 0) := by
  induction L generalizing w with
  | nil => simp
  | cons a L ih =>
      rw [List.foldl_cons, ih]
      by_cases hca : c = a
      · subst hca
        by_cases ha : grid c = 0 <;> simp [ha]
      · by_cases ha : grid a = 0 <;> simp [ha, Finset.mem_insert, hca] <;> tauto

lemma mem_foldl_erase (P : ℤ × ℤ → Prop) [DecidablePred P] (L : List (ℤ × ℤ))
    (w : Finset (ℤ × ℤ)) (c : ℤ × ℤ) :
    c ∈ L.foldl (fun w n => if n ∈ w ∧ P n then w.erase n else w) w
      ↔ c ∈ w ∧ ¬(c ∈ L ∧ P c) := by
  induction L generalizing w with
  | nil => simp
  | cons a L ih =>
      rw [List.foldl_cons, ih]
      by_cases hcond : a ∈ w ∧ P a
      · rw [if_pos hcond]
        by_cases hca : c = a
        · subst hca
          simp [Finset.mem_erase, hcond.2]
        · simp only [Finset.mem_erase, ne_eq, hca, not_false_iff, true_and,
            List.mem_cons]
          tauto
      · rw [if_neg hcond]
        by_cases hca : c = a
        · subst hca
          simp only [List.mem_cons, true_or, true_and]
          tauto
        · simp only [List.mem_cons, hca, false_or]


lemma updateOpenNodes_close_mem (cfg : WfcConfig) (grid : ℤ × ℤ → ℕ)
    (wost : Finset (ℤ × ℤ)) (y x : ℤ) (c : ℤ × ℤ) :
    c ∈ updateOpenNodes cfg grid wost y x false
      ↔ (c ∈ wost ∧ c ≠ (y, x)) ∨ (c ∈ indicesToCheck cfg y x ∧ grid c = 0) := by
  rw [updateOpenNodes, if_neg (by simp), mem_foldl_insert, Finset.mem_erase]
  tauto

lemma updateOpenNodes_reopen_mem (cfg : WfcConfig) (grid : ℤ × ℤ → ℕ)
    (wost : Finset (ℤ × ℤ)) (y x : ℤ) (c : ℤ × ℤ) :
    c ∈ updateOpenNodes cfg grid wost y x true
      ↔ c ∈ insert (y, x) wost
          ∧ ¬(c ∈ indicesToCheck cfg y x
              ∧ ∀ m ∈ subIndicesToCheck cfg c.1 c.2, grid m = 0) := by
  rw [updateOpenNodes, if_pos rfl]
  exact mem_foldl_erase (fun n => ∀ m ∈ subIndicesToCheck cfg n.1 n.2, grid m = 0) _ _ _

lemma self_not_mem_indicesToCheck (cfg : WfcConfig) (y x : ℤ) :
    (y, x) ∉ indicesToCheck cfg y x := by
  intro hmem
  simp only [indicesToCheck, List.mem_filter, List.mem_map] at hmem
  obtain ⟨⟨d, hd, heq⟩, _⟩ := hmem
  have h1 : y + d.1 = y := congrArg Prod.fst heq
  have h2 : x + d.2 = x := congrArg Prod.snd heq
  have hd0 : d = ((0 : ℤ), (0 : ℤ)) := by
    rw [Prod.ext_iff]
    constructor <;> · simp only []; omega
  subst hd0
  revert hd
  cases cfg.use8Cardinals <;> decide

/-- The consistency condition under which one `apply_action` is undone
exactly by one `revert_action`: the applied cell is undecided and open, every
undecided neighbour of it is open exactly when one of that neighbour's own
neighbours is decided, and no decided neighbour of it is open.  These hold
for the world states the search engine materializes (including the seeded
depth-0 states). -/
def ActionInv (cfg : WfcConfig) (s : WorldState) (pos : ℤ × ℤ) : Prop :=
  s.grid pos = 0 ∧ pos ∈ s.openTiles
    ∧ (∀ n ∈ indicesToCheck cfg pos.1 pos.2, s.grid n = 0 →
        (n ∈ s.openTiles ↔ ∃ m ∈ subIndicesToCheck cfg n.1 n.2, s.grid m ≠ 0))
    ∧ (∀ n ∈ indicesToCheck cfg pos.1 pos.2, s.grid n ≠ 0 → n ∉ s.openTiles)

instance (cfg : WfcConfig) (s : WorldState) (pos : ℤ × ℤ) :
    Decidable (ActionInv cfg s pos) := by
  unfold ActionInv
  infer_instance

lemma revert_apply_grid (s : WorldState) (pos : ℤ × ℤ) (tile : ℕ)
    (h1 : s.grid pos = 0) :
    updateGrid (updateGrid s.grid pos tile) pos 0 = s.grid := by
  funext c
  rw [updateGrid, updateGrid]
  by_cases hc : c = pos
  · simp [hc, h1.symm]
  · simp [hc]

lemma revert_apply_eq (cfg : WfcConfig) (s : WorldState) (pos : ℤ × ℤ) (tile : ℕ)
    (hinv : ActionInv cfg s pos) :
    revertAction cfg (applyAction cfg s (pos, tile)) (pos, tile) = s := by
  obtain ⟨h1, h2, h3, h4⟩ := hinv
  have happly : applyAction cfg s (pos, tile)
      = { grid := updateGrid s.grid pos tile
          tileCounts := updateCount s.tileCounts tile 1
          openTiles := updateOpenNodes cfg (updateGrid s.grid pos tile)
            s.openTiles pos.1 pos.2 false } := rfl
  have hg1pos : updateGrid s.grid pos tile pos = tile := by simp [updateGrid]
  rw [happly, revertAction]
  simp only [hg1pos]
  have hgrid : updateGrid (updateGrid s.grid pos tile) pos 0 = s.grid :=
    revert_apply_grid s pos tile h1
  have hcounts : updateCount (updateCount s.tileCounts tile 1) tile (-1)
      = s.tileCounts := by
    funext k
    rw [updateCount, updateCount]
    by_cases hk : k = tile <;> simp [hk]
  have hopen : updateOpenNodes cfg s.grid
      (updateOpenNodes cfg (updateGrid s.grid pos tile) s.openTiles pos.1 pos.2 false)
      pos.1 pos.2 true = s.openTiles := by
    ext c
    rw [updateOpenNodes_reopen_mem]
    by_cases hcp : c = pos
    · subst hcp
      have hnotL : c ∉ indicesToCheck cfg c.1 c.2 := by
        have := self_not_mem_indicesToCheck cfg c.1 c.2
        simpa using this
      simp [hnotL, h2]
    · have hins : c ∈ insert (pos.1, pos.2)
          (updateOpenNodes cfg (updateGrid s.grid pos tile) s.openTiles pos.1 pos.2 false)
          ↔ c ∈ updateOpenNodes cfg (updateGrid s.grid pos tile) s.openTiles
              pos.1 pos.2 false := by
        rw [Finset.mem_insert]
        simp only [Prod.mk.eta]
        tauto
      rw [hins, updateOpenNodes_close_mem]
      by_cases hcL : c ∈ indicesToCheck cfg pos.1 pos.2
      · have hg1c : updateGrid s.grid pos tile c = s.grid c := by
          simp [updateGrid, hcp]
        by_cases hgc : s.grid c = 0
        · have hiff := h3 c hcL hgc
          constructor
          · rintro ⟨_, hnot⟩
            rw [hiff]
            by_contra hnone
            apply hnot
            refine ⟨hcL, ?_⟩
            intro m hm
            by_contra hmne
            exact hnone ⟨m, hm, hmne⟩
          · intro hcw
            refine ⟨Or.inl ⟨hcw, by simpa using hcp⟩, ?_⟩
            rintro ⟨_, hall⟩
            obtain ⟨m, hm, hmne⟩ := hiff.mp hcw
            exact hmne (hall m hm)
        · have hnw := h4 c hcL hgc
          constructor
          · rintro ⟨hc1, _⟩
            rcases hc1 with ⟨hcw, _⟩ | ⟨_, hc0⟩
            · exact absurd hcw hnw
            · rw [hg1c] at hc0
              exact absurd hc0 hgc
          · intro hcw
            exact absurd hcw hnw
      · constructor
        · rintro ⟨hc1, _⟩
          rcases hc1 with ⟨hcw, _⟩ | ⟨hL, _⟩
          · exact hcw
          · exact absurd hL hcL
        · intro hcw
          exact ⟨Or.inl ⟨hcw, by simpa using hcp⟩, fun hand => hcL hand.1⟩
  rw [hgrid, hcounts, hopen]

/-- C5 (amended): `apply_action` followed by `revert_action` at the same
coordinate and tile restores the grid, the tile counters and the open set
exactly, provided the coordinate is an open undecided cell and the frontier
is consistent around it (each undecided neighbour is open exactly when one of
its own neighbours is decided, and no decided neighbour is open) — the
conditions that hold in every state the engine materializes.  For an
arbitrary frontier the restoration can fail. -/
theorem applyRevert_restores_state (cfg : WfcConfig) (s : WorldState)
    (pos : ℤ × ℤ) (tile : ℕ) (hinv : ActionInv cfg s pos) :
    revertAction cfg (applyAction cfg s (pos, tile)) (pos, tile) = s :=
  revert_apply_eq cfg s pos tile hinv

/-- 3x3 world in 4-cardinal mode, used by the concrete instances below. -/
def cfgThree : WfcConfig := ⟨false, 3, 3⟩

/-- Depth-0 state of an empty 3x3 world: all cells undecided, all counters
zero, only the centre cell open (`open_nodes_on_depth_zero` with no starting
state). -/
def centerSeedState : WorldState :=
  ⟨fun _ => 0, fun _ => 0, {((1 : ℤ), (1 : ℤ))}⟩

/-- Witness for C5: the centre of the empty seeded 3x3 world satisfies the
consistency conditions, and applying then reverting tile `7` there restores
the state. -/
theorem applyRevert_restores_state_witness :
    ActionInv cfgThree centerSeedState (1, 1)
      ∧ revertAction cfgThree (applyAction cfgThree centerSeedState ((1, 1), 7)) ((1, 1), 7)
          = centerSeedState :=
  ⟨by decide, applyRevert_restores_state cfgThree centerSeedState (1, 1) 7 (by decide)⟩

/-- A frontier no engine run produces: the all-undecided 3x3 world with open
set `{(0,1), (1,1)}`. -/
def strayFrontierState : WorldState :=
  ⟨fun _ => 0, fun _ => 0, {((0 : ℤ), (1 : ℤ)), ((1 : ℤ), (1 : ℤ))}⟩

/-- C5 counterexample: the claim quantifies over every frontier, but applying
then reverting tile `7` at `(1,1)` of `strayFrontierState` drops `(0,1)` from
the open set (the reopening sweep removes it because all of its neighbours
are undecided), so the frontier is not restored. -/
theorem applyRevert_not_universal :
    (revertAction cfgThree (applyAction cfgThree strayFrontierState ((1, 1), 7))
        ((1, 1), 7)).openTiles
      ≠ strayFrontierState.openTiles := by
  decide

/-! ### Materialization (`WFC_Problem.get_world_state` and the node
identities built in `successors`).  A search-tree node is modelled by its
root-to-leaf action path; the identity stored with a node is
`(depth, digest of the grid carrying the path's placements)`, the root being
the problem's `initial = (0, 0)`.  `hashFn` abstracts the 4-byte blake2b
digest of the grid buffer; the tree's deduplication design assumes it
injective on the grids that occur. -/

/-- The grid contents of a node: the root grid with the path's placements
written in order (this is what the per-node digest hashes). -/
def specGridAt (g0 : ℤ × ℤ → ℕ) (p : List ((ℤ × ℤ) × ℕ)) : ℤ × ℤ → ℕ :=
  p.foldl (fun g a => updateGrid g a.1 a.2) g0

/-- Node identity as compared by `get_world_state`: `(depth, hash)`; the
root carries the literal `(0, 0)` from `Problem.__init__(initial=(0, 0))`. -/
def nodeState (hashFn : (ℤ × ℤ → ℕ) → ℕ) (g0 : ℤ × ℤ → ℕ)
    (p : List ((ℤ × ℤ) × ℕ)) : ℕ × ℕ :=
  (p.length, if p.isEmpty then 0 else hashFn (specGridAt g0 p))

/-- Apply a list of actions root-to-leaf (the re-apply loop of
`get_world_state`). -/
def applyActs (cfg : WfcConfig) (s : WorldState) (acts : List ((ℤ × ℤ) × ℕ)) :
    WorldState :=
  acts.foldl (applyAction cfg) s

/-- Revert a list of actions in the order given (the callers pass
leaf-to-root lists). -/
def revertActs (cfg : WfcConfig) (s : WorldState) (acts : List ((ℤ × ℤ) × ℕ)) :
    WorldState :=
  acts.foldl (revertAction cfg) s

/-- The descending common-ancestor loop of `get_world_state`: at depth `i`
compare the two prefixes' node identities; on a match break with
`common_depth = i`, otherwise revert the `last` path's action into depth `i`
and walk both prefixes up.  At depth 0 both prefixes are the shared root
(identity `(0, 0)`), so the loop always stops there. -/
def findCommonAndRevert (cfg : WfcConfig) (hashFn : (ℤ × ℤ → ℕ) → ℕ)
    (g0 : ℤ × ℤ → ℕ) (pLast pCur : List ((ℤ × ℤ) × ℕ)) :
    ℕ → WorldState → ℕ × WorldState
  | 0, s => (0, s)
  | i + 1, s =>
      if nodeState hashFn g0 (pLast.take (i + 1)) = nodeState hashFn g0 (pCur.take (i + 1))
      then (i + 1, s)
      else
        findCommonAndRevert cfg hashFn g0 pLast pCur i
          (revertAction cfg s (pLast.getD i ((0, 0), 0)))

/-- `WFC_Problem.get_world_state`: revert the `last` path's actions down to
the smaller depth, walk up both paths comparing node identities (reverting
along `last`), then re-apply the `current` path's actions below the common
ancestor, root-to-leaf. -/
def getWorldState (cfg : WfcConfig) (hashFn : (ℤ × ℤ → ℕ) → ℕ) (g0 : ℤ × ℤ → ℕ)
    (pLast pCur : List ((ℤ × ℤ) × ℕ)) (s : WorldState) : WorldState :=
  let startDepth := min pLast.length pCur.length
  let s1 := revertActs cfg s ((pLast.drop startDepth).reverse)
  let cs := findCommonAndRevert cfg hashFn g0 pLast pCur startDepth s1
  applyActs cfg cs.2 (pCur.drop cs.1)

/-- Stepwise consistency of an action list run from a state: every action is
applied at a cell satisfying `ActionInv` in the state reached so far.  This
is the shape of the action sequences the search engine itself generates
(each expanded action targets an open cell of a consistent frontier). -/
def GoodActs (cfg : WfcConfig) : WorldState → List ((ℤ × ℤ) × ℕ) → Prop
  | _, [] => True
  | s, a :: rest => ActionInv cfg s a.1 ∧ GoodActs cfg (applyAction cfg s a) rest

lemma applyActs_nil (cfg : WfcConfig) (s : WorldState) : applyActs cfg s [] = s := rfl

lemma applyActs_cons (cfg : WfcConfig) (s : WorldState) (a : (ℤ × ℤ) × ℕ)
    (l : List ((ℤ × ℤ) × ℕ)) :
    applyActs cfg s (a :: l) = applyActs cfg (applyAction cfg s a) l := rfl

lemma applyActs_append (cfg : WfcConfig) (s : WorldState)
    (l1 l2 : List ((ℤ × ℤ) × ℕ)) :
    applyActs cfg s (l1 ++ l2) = applyActs cfg (applyActs cfg s l1) l2 := by
  rw [applyActs, applyActs, applyActs, List.foldl_append]

lemma revertActs_append (cfg : WfcConfig) (s : WorldState)
    (l1 l2 : List ((ℤ × ℤ) × ℕ)) :
    revertActs cfg s (l1 ++ l2) = revertActs cfg (revertActs cfg s l1) l2 := by
  rw [revertActs, revertActs, revertActs, List.foldl_append]

lemma goodActs_cons (cfg : WfcConfig) (s : WorldState) (a : (ℤ × ℤ) × ℕ)
    (l : List ((ℤ × ℤ) × ℕ)) :
    GoodActs cfg s (a :: l) ↔ ActionInv cfg s a.1 ∧ GoodActs cfg (applyAction cfg s a) l :=
  Iff.rfl

lemma goodActs_append (cfg : WfcConfig) (s : WorldState)
    (l1 l2 : List ((ℤ × ℤ) × ℕ)) :
    GoodActs cfg s (l1 ++ l2)
      ↔ GoodActs cfg s l1 ∧ GoodActs cfg (applyActs cfg s l1) l2 := by
  induction l1 generalizing s with
  | nil =>
      rw [List.nil_append, applyActs_nil]
      exact (and_iff_right trivial).symm
  | cons a l ih =>
      rw [List.cons_append, goodActs_cons, goodActs_cons, ih, applyActs_cons, and_assoc]

/-- Reverting a consistently applied action list, leaf-to-root, restores the
starting state (iterated `revert_apply_eq`). -/
lemma revertActs_applyActs (cfg : WfcConfig) (s : WorldState)
    (l : List ((ℤ × ℤ) × ℕ)) (hgood : GoodActs cfg s l) :
    revertActs cfg (applyActs cfg s l) l.reverse = s := by
  induction l generalizing s with
  | nil => rfl
  | cons a l ih =>
      obtain ⟨hinv, hrest⟩ := (goodActs_cons cfg s a l).mp hgood
      rw [applyActs_cons, List.reverse_cons, revertActs_append, ih _ hrest]
      exact revert_apply_eq cfg s a.1 a.2 hinv

/-- Materializing a node against itself performs no revert and no apply: the
first identity comparison (equal depths, equal grids) matches at once. -/
lemma getWorldState_self (cfg : WfcConfig) (hashFn : (ℤ × ℤ → ℕ) → ℕ)
    (g0 : ℤ × ℤ → ℕ) (p : List ((ℤ × ℤ) × ℕ)) (s : WorldState) :
    getWorldState cfg hashFn g0 p p s = s := by
  rw [getWorldState]
  simp only [min_self, List.drop_length, List.reverse_nil]
  have hrev : revertActs cfg s [] = s := rfl
  rw [hrev]
  cases hp : p.length with
  | zero =>
      have hnil : p = [] := List.length_eq_zero.mp hp
      subst hnil
      rfl
  | succ n =>
      have hfind : findCommonAndRevert cfg hashFn g0 p p (n + 1) s = (n + 1, s) := by
        rw [findCommonAndRevert, if_pos rfl]
      rw [hfind]
      have hdrop : p.drop (n + 1) = [] := by
        rw [← hp, List.drop_length]
      rw [hdrop]
      rfl

lemma revert_apply_eq' (cfg : WfcConfig) (s : WorldState) (a : (ℤ × ℤ) × ℕ)
    (hinv : ActionInv cfg s a.1) :
    revertAction cfg (applyAction cfg s a) a = s := by
  have h := revert_apply_eq cfg s a.1 a.2 hinv
  simpa using h

lemma getD_append_length_add (P : List ((ℤ × ℤ) × ℕ)) :
    ∀ (l : List ((ℤ × ℤ) × ℕ)) (k : ℕ) (d : (ℤ × ℤ) × ℕ),
      (P ++ l).getD (P.length + k) d = l.getD k d := by
  induction P with
  | nil => intro l k d; simp
  | cons a P ih =>
      intro l k d
      rw [List.cons_append, List.length_cons]
      rw [show P.length + 1 + k = (P.length + k) + 1 by omega]
      exact ih l k d

lemma take_succ_getD (l : List ((ℤ × ℤ) × ℕ)) (k : ℕ) (h : k < l.length)
    (d : (ℤ × ℤ) × ℕ) :
    l.take (k + 1) = l.take k ++ [l.getD k d] := by
  rw [List.take_succ]
  congr 1
  rw [List.getElem?_eq_getElem h, List.getD_eq_get l d h]
  rfl

lemma goodActs_getD_inv (cfg : WfcConfig) (s : WorldState)
    (l : List ((ℤ × ℤ) × ℕ)) (hgood : GoodActs cfg s l) (k : ℕ) (h : k < l.length)
    (d : (ℤ × ℤ) × ℕ) :
    ActionInv cfg (applyActs cfg s (l.take k)) (l.getD k d).1 := by
  have hgood' : GoodActs cfg s (l.take k ++ l.drop k) := by
    rw [List.take_append_drop]
    exact hgood
  have h2 := ((goodActs_append cfg s _ _).mp hgood').2
  have hdrop : l.drop k = l.getD k d :: l.drop (k + 1) := by
    rw [List.drop_eq_get_cons h, List.getD_eq_get l d h]
  rw [hdrop] at h2
  exact ((goodActs_cons cfg _ _ _).mp h2).1

/-- Behaviour of the descending loop on two tree branches `P ++ SA` (the last
materialized node) and `P ++ SB` (the target), entered at depth
`P.length + k` with the world holding the first `k` suffix actions of `SA`:
all identity comparisons below the fork fail (distinct digests), each failure
reverts one suffix action, and the loop stops at the fork with the world at
the shared-prefix state. -/
lemma findCommonAndRevert_spec (cfg : WfcConfig) (hashFn : (ℤ × ℤ → ℕ) → ℕ)
    (g0 : ℤ × ℤ → ℕ) (P SA SB : List ((ℤ × ℤ) × ℕ)) (sP : WorldState)
    (hgood : GoodActs cfg sP SA)
    (hdist : ∀ i, P.length < i → i ≤ P.length + min SA.length SB.length →
        nodeState hashFn g0 ((P ++ SA).take i) ≠ nodeState hashFn g0 ((P ++ SB).take i)) :
    ∀ k, k ≤ min SA.length SB.length →
      findCommonAndRevert cfg hashFn g0 (P ++ SA) (P ++ SB) (P.length + k)
          (applyActs cfg sP (SA.take k))
        = (P.length, sP) := by
  intro k
  induction k with
  | zero =>
      intro _
      rw [Nat.add_zero, List.take_zero, applyActs_nil]
      cases hp : P.length with
      | zero => rfl
      | succ n =>
          rw [findCommonAndRevert, if_pos (by
            rw [List.take_append_of_le_length (by omega),
              List.take_append_of_le_length (by omega)])]
  | succ k ih =>
      intro hk
      rw [show P.length + (k + 1) = (P.length + k) + 1 by omega, findCommonAndRevert,
        if_neg (hdist (P.length + k + 1) (by omega) (by omega))]
      have hklt : k < SA.length := by omega
      rw [getD_append_length_add, take_succ_getD SA k hklt ((0, 0), 0), applyActs_append]
      rw [show applyActs cfg (applyActs cfg sP (SA.take k)) [SA.getD k ((0, 0), 0)]
          = applyAction cfg (applyActs cfg sP (SA.take k)) (SA.getD k ((0, 0), 0)) from rfl]
      rw [revert_apply_eq' cfg _ _ (goodActs_getD_inv cfg sP SA hgood k hklt ((0, 0), 0))]
      exact ih (by omega)

/-- Materializing `P ++ SB` when the world holds `P ++ SA` reverts exactly
the `SA` suffix (leaf-to-root) and re-applies exactly the `SB` suffix
(root-to-leaf). -/
lemma getWorldState_materializes (cfg : WfcConfig) (hashFn : (ℤ × ℤ → ℕ) → ℕ)
    (g0 : ℤ × ℤ → ℕ) (P SA SB : List ((ℤ × ℤ) × ℕ)) (sP : WorldState)
    (hA : GoodActs cfg sP SA) (hB : GoodActs cfg sP SB)
    (hdist : ∀ i, P.length < i → i ≤ P.length + min SA.length SB.length →
        nodeState hashFn g0 ((P ++ SA).take i) ≠ nodeState hashFn g0 ((P ++ SB).take i)) :
    getWorldState cfg hashFn g0 (P ++ SA) (P ++ SB) (applyActs cfg sP SA)
      = applyActs cfg sP SB := by
  have hmin : min (P ++ SA).length (P ++ SB).length
      = P.length + min SA.length SB.length := by
    rw [List.length_append, List.length_append, Nat.add_min_add_left]
  have hsplit : applyActs cfg sP SA
      = applyActs cfg (applyActs cfg sP (SA.take (min SA.length SB.length)))
          (SA.drop (min SA.length SB.length)) := by
    rw [← applyActs_append, List.take_append_drop]
  have hgooddrop : GoodActs cfg (applyActs cfg sP (SA.take (min SA.length SB.length)))
      (SA.drop (min SA.length SB.length)) := by
    have hA' : GoodActs cfg sP
        (SA.take (min SA.length SB.length) ++ SA.drop (min SA.length SB.length)) := by
      rw [List.take_append_drop]
      exact hA
    exact ((goodActs_append cfg sP _ _).mp hA').2
  have h1 : revertActs cfg (applyActs cfg sP SA)
      (((P ++ SA).drop (P.length + min SA.length SB.length)).reverse)
      = applyActs cfg sP (SA.take (min SA.length SB.length)) := by
    rw [List.drop_append, hsplit, revertActs_applyActs _ _ _ hgooddrop]
  have h2 := findCommonAndRevert_spec cfg hashFn g0 P SA SB sP hA hdist
    (min SA.length SB.length) le_rfl
  simp only [getWorldState]
  rw [hmin, h1, h2]
  show applyActs cfg sP ((P ++ SB).drop P.length) = applyActs cfg sP SB
  rw [List.drop_left]

/-- C6: for tree nodes `A = P ++ SA` and `B = P ++ SB` with consistent suffix
actions and distinct node identities below the fork (collision-free digests,
the dedup design assumption), `materialize(A, A)` leaves the world state
unchanged, and `materialize(A, B)` followed by `materialize(B, A)` restores
exactly the state that `materialize(A, A)` produces. -/
theorem materialize_self_and_roundtrip (cfg : WfcConfig)
    (hashFn : (ℤ × ℤ → ℕ) → ℕ) (g0 : ℤ × ℤ → ℕ)
    (P SA SB : List ((ℤ × ℤ) × ℕ)) (sP : WorldState)
    (hA : GoodActs cfg sP SA) (hB : GoodActs cfg sP SB)
    (hdist : ∀ i, P.length < i → i ≤ P.length + min SA.length SB.length →
        nodeState hashFn g0 ((P ++ SA).take i) ≠ nodeState hashFn g0 ((P ++ SB).take i)) :
    (∀ s : WorldState, getWorldState cfg hashFn g0 (P ++ SA) (P ++ SA) s = s)
      ∧ getWorldState cfg hashFn g0 (P ++ SB) (P ++ SA)
          (getWorldState cfg hashFn g0 (P ++ SA) (P ++ SB) (applyActs cfg sP SA))
        = getWorldState cfg hashFn g0 (P ++ SA) (P ++ SA) (applyActs cfg sP SA) := by
  have hdist' : ∀ i, P.length < i → i ≤ P.length + min SB.length SA.length →
      nodeState hashFn g0 ((P ++ SB).take i) ≠ nodeState hashFn g0 ((P ++ SA).take i) := by
    intro i hi1 hi2
    exact (hdist i hi1 (by rwa [min_comm SA.length SB.length])).symm
  refine ⟨getWorldState_self cfg hashFn g0 (P ++ SA), ?_⟩
  rw [getWorldState_materializes cfg hashFn g0 P SA SB sP hA hB hdist]
  rw [getWorldState_materializes cfg hashFn g0 P SB SA sP hB hA hdist']
  rw [getWorldState_self cfg hashFn g0 (P ++ SA) _]

/-- All-undecided root grid for the concrete instances. -/
def zeroGrid : ℤ × ℤ → ℕ := fun _ => 0

/-- A concrete digest for the instances below: read the centre cell.  It is
injective on the grids the concrete branches produce. -/
def centerHash (g : ℤ × ℤ → ℕ) : ℕ := g (1, 1)

/-- Witness for C6: empty 3x3 world, two branches placing tile `1`
respectively tile `2` at the centre. -/
theorem materialize_self_and_roundtrip_witness :
    GoodActs cfgThree centerSeedState [((1, 1), 1)]
      ∧ GoodActs cfgThree centerSeedState [((1, 1), 2)]
      ∧ getWorldState cfgThree centerHash zeroGrid [((1, 1), 1)] [((1, 1), 1)]
          (applyActs cfgThree centerSeedState [((1, 1), 1)])
          = applyActs cfgThree centerSeedState [((1, 1), 1)]
      ∧ getWorldState cfgThree centerHash zeroGrid [((1, 1), 2)] [((1, 1), 1)]
          (getWorldState cfgThree centerHash zeroGrid [((1, 1), 1)] [((1, 1), 2)]
            (applyActs cfgThree centerSeedState [((1, 1), 1)]))
          = getWorldState cfgThree centerHash zeroGrid [((1, 1), 1)] [((1, 1), 1)]
            (applyActs cfgThree centerSeedState [((1, 1), 1)]) := by
  have hA : GoodActs cfgThree centerSeedState [((1, 1), 1)] := ⟨by decide, trivial⟩
  have hB : GoodActs cfgThree centerSeedState [((1, 1), 2)] := ⟨by decide, trivial⟩
  have hdist : ∀ i : ℕ, ([] : List ((ℤ × ℤ) × ℕ)).length < i →
      i ≤ ([] : List ((ℤ × ℤ) × ℕ)).length
          + min [((1, 1), 1)].length [((1, 1), 2)].length →
      nodeState centerHash zeroGrid
          ((([] : List ((ℤ × ℤ) × ℕ)) ++ [((1, 1), 1)]).take i)
        ≠ nodeState centerHash zeroGrid
          ((([] : List ((ℤ × ℤ) × ℕ)) ++ [((1, 1), 2)]).take i) := by
    intro i h1 h2
    simp only [List.length_nil, List.length_cons] at h1 h2
    have hi : i = 1 := by omega
    subst hi
    decide
  have hmain := materialize_self_and_roundtrip cfgThree centerHash zeroGrid
    [] [((1, 1), 1)] [((1, 1), 2)] centerSeedState hA hB hdist
  exact ⟨hA, hB,
    hmain.1 (applyActs cfgThree centerSeedState [((1, 1), 1)]), hmain.2⟩

/-! ### Successor enumeration (`WFC_Problem.successors`, the child-generation
loop): for each open cell and candidate tile the loop writes the tile into
the shared grid, digests the buffer for the child identity
`(depth + 1, hash)`, resets the cell to undecided, and yields the child with
its action `((y, x), tile)`. -/

/-- Writing a tile and clearing it again leaves the grid unchanged when the
cell was undecided. -/
lemma updateGrid_write_reset (g : ℤ × ℤ → ℕ) (c : ℤ × ℤ) (t : ℕ) (hg : g c = 0) :
    updateGrid (updateGrid g c t) c 0 = g := by
  funext c'
  rw [updateGrid, updateGrid]
  by_cases hc : c' = c
  · simp [hc, hg.symm]
  · simp [hc]

/-- One inner iteration of the child-generation loop
(`world_state[y, x] = tile_type; hash; world_state[y, x] = 0; yield`). -/
def enumTileStep (hashFn : (ℤ × ℤ → ℕ) → ℕ) (depth : ℕ) (c : ℤ × ℤ)
    (acc : List ((ℕ × ℕ) × ((ℤ × ℤ) × ℕ)) × (ℤ × ℤ → ℕ)) (t : ℕ) :
    List ((ℕ × ℕ) × ((ℤ × ℤ) × ℕ)) × (ℤ × ℤ → ℕ) :=
  (acc.1 ++ [((depth + 1, hashFn (updateGrid acc.2 c t)), (c, t))],
   updateGrid (updateGrid acc.2 c t) c 0)

/-- The full child-generation loop of `successors` over the open cells and
their candidate lists, threading the shared grid buffer. -/
def enumerateChildren (hashFn : (ℤ × ℤ → ℕ) → ℕ) (depth : ℕ)
    (collapses : List ((ℤ × ℤ) × List ℕ)) (g : ℤ × ℤ → ℕ) :
    List ((ℕ × ℕ) × ((ℤ × ℤ) × ℕ)) × (ℤ × ℤ → ℕ) :=
  collapses.foldl
    (fun acc cell => cell.2.foldl (enumTileStep hashFn depth cell.1) acc)
    ([], g)

lemma enumTileStep_foldl (hashFn : (ℤ × ℤ → ℕ) → ℕ) (depth : ℕ) (c : ℤ × ℤ)
    (ts : List ℕ) (g : ℤ × ℤ → ℕ) (hg : g c = 0) :
    ∀ ch0, ts.foldl (enumTileStep hashFn depth c) (ch0, g)
      = (ch0 ++ ts.map (fun t => ((depth + 1, hashFn (updateGrid g c t)), (c, t))), g) := by
  induction ts with
  | nil => intro ch0; simp
  | cons t ts ih =>
      intro ch0
      rw [List.foldl_cons]
      have hstep : enumTileStep hashFn depth c (ch0, g) t
          = (ch0 ++ [((depth + 1, hashFn (updateGrid g c t)), (c, t))],
             g) := by
        rw [enumTileStep, updateGrid_write_reset g c t hg]
      rw [hstep, ih]
      simp

lemma enumerateChildren_foldl (hashFn : (ℤ × ℤ → ℕ) → ℕ) (depth : ℕ)
    (collapses : List ((ℤ × ℤ) × List ℕ)) :
    ∀ (g : ℤ × ℤ → ℕ), (∀ p ∈ collapses, g p.1 = 0) →
      ∀ ch0, collapses.foldl
          (fun acc cell => cell.2.foldl (enumTileStep hashFn depth cell.1) acc)
          (ch0, g)
        = (ch0 ++ collapses.flatMap (fun pc => pc.2.map (fun t =>
            ((depth + 1, hashFn (updateGrid g pc.1 t)), (pc.1, t)))), g) := by
  induction collapses with
  | nil => intro g _ ch0; simp
  | cons pc rest ih =>
      intro g hopen ch0
      rw [List.foldl_cons]
      have hpc : g pc.1 = 0 := hopen pc (List.mem_cons_self pc rest)
      rw [enumTileStep_foldl hashFn depth pc.1 pc.2 g hpc ch0]
      rw [ih g (fun p hp => hopen p (List.mem_cons_of_mem pc hp))]
      simp [List.append_assoc]

/-- C9: during successor enumeration every child's identity is
`(depth + 1, digest of the grid with exactly that hypothetical placement)`,
and the grid is returned to its starting contents (each placed cell is reset
to undecided before the child is yielded), provided each open cell being
expanded is undecided in the materialized grid — which is what the frontier
invariant guarantees. -/
theorem enumerateChildren_spec (hashFn : (ℤ × ℤ → ℕ) → ℕ) (depth : ℕ)
    (collapses : List ((ℤ × ℤ) × List ℕ)) (g : ℤ × ℤ → ℕ)
    (hopen : ∀ p ∈ collapses, g p.1 = 0) :
    (enumerateChildren hashFn depth collapses g).2 = g
      ∧ (enumerateChildren hashFn depth collapses g).1
        = collapses.flatMap (fun pc => pc.2.map (fun t =>
            ((depth + 1, hashFn (updateGrid g pc.1 t)), (pc.1, t)))) := by
  rw [enumerateChildren, enumerateChildren_foldl hashFn depth collapses g hopen []]
  exact ⟨rfl, by simp⟩

/-- Witness for C9: a 2-cell frontier of the all-undecided grid with one and
two candidates. -/
theorem enumerateChildren_spec_witness :
    (∀ p ∈ [((0, 0), [5]), ((0, 1), [3, 4])], zeroGrid p.1 = 0)
      ∧ (enumerateChildren centerHash 0 [((0, 0), [5]), ((0, 1), [3, 4])] zeroGrid).2
          = zeroGrid
      ∧ (enumerateChildren centerHash 0 [((0, 0), [5]), ((0, 1), [3, 4])] zeroGrid).1
        = [((0, 0), [5]), ((0, 1), [3, 4])].flatMap (fun pc => pc.2.map (fun t =>
            ((0 + 1, centerHash (updateGrid zeroGrid pc.1 t)), (pc.1, t)))) :=
  ⟨by decide,
    (enumerateChildren_spec centerHash 0 [((0, 0), [5]), ((0, 1), [3, 4])] zeroGrid
      (by decide)).1,
    (enumerateChildren_spec centerHash 0 [((0, 0), [5]), ((0, 1), [3, 4])] zeroGrid
      (by decide)).2⟩

/-! ### Occurrence counters.  `WFC_Problem.__init__` zeroes
`self._tile_counts` for every catalog hash — also when a pre-filled starting
grid is supplied, so pre-filled cells are never counted — and
`apply_action` / `revert_action` update the counters in lockstep with the
materialized path. -/

/-- The total of the occurrence counters over the catalog's tile hashes. -/
def tileCountsSum (keys : Finset ℕ) (s : WorldState) : ℤ :=
  ∑ t ∈ keys, s.tileCounts t

lemma tileCountsSum_updateCount (keys : Finset ℕ) (tc : ℕ → ℤ) (k : ℕ) (dlt : ℤ)
    (hk : k ∈ keys) :
    ∑ t ∈ keys, updateCount tc k dlt t = (∑ t ∈ keys, tc t) + dlt := by
  simp only [updateCount]
  have hsplit : ∀ t, (if t = k then tc t + dlt else tc t)
      = tc t + (if t = k then dlt else 0) := by
    intro t
    split_ifs <;> simp
  rw [Finset.sum_congr rfl (fun t _ => hsplit t), Finset.sum_add_distrib,
    Finset.sum_ite_eq' keys k (fun _ => dlt)]
  simp [hk]

lemma tileCountsSum_applyAction (cfg : WfcConfig) (keys : Finset ℕ)
    (s : WorldState) (a : (ℤ × ℤ) × ℕ) (ha : a.2 ∈ keys) :
    tileCountsSum keys (applyAction cfg s a) = tileCountsSum keys s + 1 :=
  tileCountsSum_updateCount keys s.tileCounts a.2 1 ha

lemma tileCountsSum_revertAction (cfg : WfcConfig) (keys : Finset ℕ)
    (s : WorldState) (a : (ℤ × ℤ) × ℕ) (ha : s.grid a.1 ∈ keys) :
    tileCountsSum keys (revertAction cfg s a) = tileCountsSum keys s - 1 := by
  have h := tileCountsSum_updateCount keys s.tileCounts (s.grid a.1) (-1) ha
  rw [tileCountsSum, tileCountsSum]
  rw [show (revertAction cfg s a).tileCounts
      = updateCount s.tileCounts (s.grid a.1) (-1) from rfl]
  rw [h]
  ring

lemma tileCountsSum_applyActs (cfg : WfcConfig) (keys : Finset ℕ) :
    ∀ (acts : List ((ℤ × ℤ) × ℕ)) (s : WorldState), (∀ a ∈ acts, a.2 ∈ keys) →
      tileCountsSum keys (applyActs cfg s acts)
        = tileCountsSum keys s + acts.length := by
  intro acts
  induction acts with
  | nil => intro s _; simp [applyActs_nil]
  | cons a rest ih =>
      intro s hmem
      rw [applyActs_cons, ih _ (fun b hb => hmem b (List.mem_cons_of_mem a hb)),
        tileCountsSum_applyAction cfg keys s a (hmem a (List.mem_cons_self a rest)),
        List.length_cons]
      push_cast
      ring

/-- C10: the sum of the occurrence counters equals the materialized node's
depth.  From a root state with all counters zero (as `__init__` builds it,
also over a pre-filled starting grid, whose cells are therefore never
counted), materializing any node `P ++ SA` by applying its path gives sum
`= depth`, and re-materializing a sibling branch `P ++ SB` through
`get_world_state`'s reverts and applies gives sum `= that node's depth`. -/
theorem tileCountsSum_eq_depth (cfg : WfcConfig) (hashFn : (ℤ × ℤ → ℕ) → ℕ)
    (g0 : ℤ × ℤ → ℕ) (P SA SB : List ((ℤ × ℤ) × ℕ)) (s0 : WorldState)
    (keys : Finset ℕ) (hzero : ∀ t, s0.tileCounts t = 0)
    (htilesA : ∀ a ∈ P ++ SA, a.2 ∈ keys) (htilesB : ∀ a ∈ SB, a.2 ∈ keys)
    (hA : GoodActs cfg (applyActs cfg s0 P) SA)
    (hB : GoodActs cfg (applyActs cfg s0 P) SB)
    (hdist : ∀ i, P.length < i → i ≤ P.length + min SA.length SB.length →
        nodeState hashFn g0 ((P ++ SA).take i) ≠ nodeState hashFn g0 ((P ++ SB).take i)) :
    tileCountsSum keys (applyActs cfg s0 (P ++ SA)) = ((P ++ SA).length : ℤ)
      ∧ tileCountsSum keys
          (getWorldState cfg hashFn g0 (P ++ SA) (P ++ SB)
            (applyActs cfg s0 (P ++ SA)))
        = ((P ++ SB).length : ℤ) := by
  have hzs : tileCountsSum keys s0 = 0 := by
    rw [tileCountsSum]
    exact Finset.sum_eq_zero (fun t _ => hzero t)
  constructor
  · rw [tileCountsSum_applyActs cfg keys (P ++ SA) s0 htilesA, hzs]
    ring
  · rw [applyActs_append,
      getWorldState_materializes cfg hashFn g0 P SA SB (applyActs cfg s0 P) hA hB hdist,
      ← applyActs_append,
      tileCountsSum_applyActs cfg keys (P ++ SB) s0
        (by
          intro a hab
          rcases List.mem_append.mp hab with hP | hSB
          · exact htilesA a (List.mem_append.mpr (Or.inl hP))
          · exact htilesB a hSB),
      hzs]
    ring

/-- A pre-filled 3x3 starting grid: tile `9` already decided at `(0, 0)`. -/
def prefilledGrid : ℤ × ℤ → ℕ := fun c => if c = (0, 0) then 9 else 0

/-- Depth-0 state over `prefilledGrid`: counters all zero (the pre-filled
cell is not counted) and the undecided neighbours of the decided cell open
(`open_nodes_on_depth_zero` with a starting state). -/
def prefilledSeedState : WorldState :=
  ⟨prefilledGrid, fun _ => 0, {((0 : ℤ), (1 : ℤ)), ((1 : ℤ), (0 : ℤ))}⟩

/-- Digest for the pre-filled instance: read cell `(0, 1)`, where the two
concrete branches differ. -/
def topRowHash (g : ℤ × ℤ → ℕ) : ℕ := g (0, 1)

/-- Witness for C10: over the pre-filled grid, placing tile `5` (or `6`) at
`(0, 1)` gives counter sum `1` — the pre-filled tile `9` is never counted. -/
theorem tileCountsSum_eq_depth_witness :
    (∀ t, prefilledSeedState.tileCounts t = 0)
      ∧ GoodActs cfgThree prefilledSeedState [((0, 1), 5)]
      ∧ tileCountsSum {5, 6} (applyActs cfgThree prefilledSeedState
          (([] : List ((ℤ × ℤ) × ℕ)) ++ [((0, 1), 5)])) = ((1 : ℕ) : ℤ)
      ∧ tileCountsSum {5, 6}
          (getWorldState cfgThree topRowHash prefilledGrid
            (([] : List ((ℤ × ℤ) × ℕ)) ++ [((0, 1), 5)])
            (([] : List ((ℤ × ℤ) × ℕ)) ++ [((0, 1), 6)])
            (applyActs cfgThree prefilledSeedState
              (([] : List ((ℤ × ℤ) × ℕ)) ++ [((0, 1), 5)])))
        = ((1 : ℕ) : ℤ) := by
  have hzero : ∀ t, prefilledSeedState.tileCounts t = 0 := fun _ => rfl
  have hA : GoodActs cfgThree (applyActs cfgThree prefilledSeedState [])
      [((0, 1), 5)] := ⟨by decide, trivial⟩
  have hB : GoodActs cfgThree (applyActs cfgThree prefilledSeedState [])
      [((0, 1), 6)] := ⟨by decide, trivial⟩
  have hdist : ∀ i : ℕ, ([] : List ((ℤ × ℤ) × ℕ)).length < i →
      i ≤ ([] : List ((ℤ × ℤ) × ℕ)).length
          + min [((0, 1), 5)].length [((0, 1), 6)].length →
      nodeState topRowHash prefilledGrid
          ((([] : List ((ℤ × ℤ) × ℕ)) ++ [((0, 1), 5)]).take i)
        ≠ nodeState topRowHash prefilledGrid
          ((([] : List ((ℤ × ℤ) × ℕ)) ++ [((0, 1), 6)]).take i) := by
    intro i h1 h2
    simp only [List.length_nil, List.length_cons] at h1 h2
    have hi : i = 1 := by omega
    subst hi
    decide
  have hmain := tileCountsSum_eq_depth cfgThree topRowHash prefilledGrid
    [] [((0, 1), 5)] [((0, 1), 6)] prefilledSeedState {5, 6} hzero
    (by decide) (by decide) hA hB hdist
  exact ⟨hzero, hA, hmain.1, hmain.2⟩

/-! ### Cancellation (`WFC_Problem.successors` lines 406-408 and
`nodes.py generate_single`).  The very first statement of `successors`
raises `InterruptedError` when the shared stop proxy is set — before any
state is touched and before any child is produced.  The driver
`generate_single` catches `InterruptedError` and returns `None` (the
ComfyUI generate node re-raises the interruption); only the non-cancelled
paths call `get_solution_state` and yield a grid. -/

/-- Outcome of one engine run as the drivers surface it. -/
inductive SingleRunResult where
  | cancelled
  | finished (grid : List (List ℕ))
deriving DecidableEq

/-- Modelled from `generate_single` together with the guard at the top of
`successors`: with the stop proxy set, the first expansion raises before
touching the world state, and the driver returns the distinct cancelled
outcome; otherwise the search runs (`continueSearch` abstracts everything
after the guard, returning the produced grid and final state). -/
def generateSingle (stopFlagSet : Bool) (s : WorldState)
    (continueSearch : WorldState → List (List ℕ) × WorldState) :
    SingleRunResult × WorldState :=
  if stopFlagSet then (SingleRunResult.cancelled, s)
  else
    ((SingleRunResult.finished (continueSearch s).1), (continueSearch s).2)

/-- C7 (amended): setting the cancellation flag before the first expansion
makes the run abort with the distinct `cancelled` outcome, with the world
state untouched (zero assignments); no result grid — all-undecided or
otherwise — is produced. -/
theorem generateSingle_cancelled (s : WorldState)
    (continueSearch : WorldState → List (List ℕ) × WorldState) :
    generateSingle true s continueSearch = (SingleRunResult.cancelled, s)
      ∧ ∀ g : List (List ℕ),
          (generateSingle true s continueSearch).1 ≠ SingleRunResult.finished g := by
  constructor
  · rfl
  · intro g
    rw [show (generateSingle true s continueSearch).1
        = SingleRunResult.cancelled from rfl]
    exact fun hcontra => SingleRunResult.noConfusion hcontra

/-- C7 counterexample: the claim predicts an all-undecided result grid; with
the flag set the run yields the `cancelled` outcome, not
`finished (all-zero grid)` — no grid at all is produced. -/
theorem generateSingle_cancelled_no_grid :
    (generateSingle true centerSeedState
        (fun s => ([[0, 0], [0, 0]], s))).1
      ≠ SingleRunResult.finished [[0, 0], [0, 0]] := by
  decide
